import Mathlib

/-!
Verification development for the TFE transfer-function editor
(src/tfe/TFEditor.h plus the bundled examples).

The C++ core is embedded shallowly: floating-point scalars become exact
rationals, `unsigned` / `size_t` values become naturals with explicit
wrap-around (mod 2 ^ 32) where the source relies on unsigned overflow,
`std::vector<uint32_t>` pixel stores become lists of naturals with checked
indexing (an out-of-range `List.set` stores nothing, an out-of-range read
yields the default 0), and the virtual `Function` / `Layer` interfaces become
structures carrying their single dynamic method.
-/

namespace tfe

/-- Modelled from the spec: math.h is not under src/; section 3 of the spec
describes 2-component float vectors (control points, positions). -/
structure vec2 where
  x : ℚ
  y : ℚ
deriving DecidableEq

/-- Modelled from the spec: math.h is not under src/; 3-component float
vector (colors without alpha). -/
structure vec3 where
  x : ℚ
  y : ℚ
  z : ℚ
deriving DecidableEq

/-- Modelled from the spec: math.h is not under src/; 4-component float
vector (RGBA colors). -/
structure vec4 where
  x : ℚ
  y : ℚ
  z : ℚ
  w : ℚ
deriving DecidableEq

/-- Modelled from the spec: componentwise vector addition from math.h
(spec section 4.1 says the over operator acts per channel). -/
def vec4.add (a b : vec4) : vec4 := ⟨a.x + b.x, a.y + b.y, a.z + b.z, a.w + b.w⟩

/-- Modelled from the spec: scalar-times-vector from math.h, per channel. -/
def vec4.smul (s : ℚ) (b : vec4) : vec4 := ⟨s * b.x, s * b.y, s * b.z, s * b.w⟩

/-- Modelled from the spec: math.h box1f, a 1-D interval with fields
lower and upper, used as a function domain. -/
structure box1 where
  lower : ℚ
  upper : ℚ
deriving DecidableEq

/-- Modelled from the spec: math.h clamp; spec 4.1: clamps input to the
given interval. -/
def clamp (f lo hi : ℚ) : ℚ := min (max f lo) hi

/-- TFEditor.h line 58: cvt_uint32 on a float: 255 * clamp(f,0,1),
truncated to an unsigned integer (truncation of a nonnegative value is
the floor). -/
def cvt_uint32 (f : ℚ) : ℕ := (⌊255 * clamp f 0 1⌋).toNat

/-- TFEditor.h line 63: cvt_uint32 on a vec4f packs the four channel bytes
at bit positions 0, 8, 16, 24. -/
def cvt_uint32v (v : vec4) : ℕ :=
  (cvt_uint32 v.x <<< 0) ||| (cvt_uint32 v.y <<< 8) |||
    (cvt_uint32 v.z <<< 16) ||| (cvt_uint32 v.w <<< 24)

/-- TFEditor.h line 69: cvt_float32 divides by 255. -/
def cvt_float32 (u : ℕ) : ℚ := (u : ℚ) / 255

/-- TFEditor.h line 74: cvt_rgba32f unpacks the four bytes of a packed
pixel and converts each to float. -/
def cvt_rgba32f (u : ℕ) : vec4 :=
  ⟨cvt_float32 (u &&& 255), cvt_float32 ((u >>> 8) &&& 255),
    cvt_float32 ((u >>> 16) &&& 255), cvt_float32 ((u >>> 24) &&& 255)⟩

/-- TFEditor.h line 82: over(A, B) = A + (1 - A.w) * B, per channel. -/
def over (A B : vec4) : vec4 := vec4.add A (vec4.smul (1 - A.w) B)

/-- One past the largest value of a 32-bit unsigned integer. -/
def U32 : ℕ := 4294967296

/-- TFEditor.h line 89: Texture, a width x height grid of packed pixels
backed by a flat vector. -/
structure Texture where
  width : ℕ
  height : ℕ
  data : List ℕ
deriving DecidableEq

/-- TFEditor.h line 92: the two-argument Texture constructor
zero-initializes w * h pixels. -/
def Texture.new (w h : ℕ) : Texture := ⟨w, h, List.replicate (w * h) 0⟩

/-- TFEditor.h line 96: linearIndex(x, y) = x + width * y (size_t
arithmetic; no wrap occurs for the operand ranges the claims touch). -/
def Texture.linearIndex (t : Texture) (x y : ℕ) : ℕ := x + t.width * y

/-- TFEditor.h line 99: flip(y) = height - y - 1 in unsigned arithmetic,
so for y >= height the result wraps around mod 2 ^ 32. -/
def Texture.flip (t : Texture) (y : ℕ) : ℕ :=
  (t.height + (U32 - y % U32) - 1) % U32

/-- TFEditor.h line 102: set writes the packed value at the flipped row;
the vector store is modelled with checked indexing, so an out-of-range
index stores nothing. -/
def Texture.set (t : Texture) (x y val : ℕ) : Texture :=
  ⟨t.width, t.height, t.data.set (t.linearIndex x (t.flip y)) val⟩

/-- TFEditor.h line 105: get reads the packed value at the flipped row
(out-of-range reads default to 0 in the model; the claims only read in
bounds). -/
def Texture.get (t : Texture) (x y : ℕ) : ℕ :=
  t.data.getD (t.linearIndex x (t.flip y)) 0

/-- A texture has the expected dimensions and backing-store size. -/
def Texture.wf (t : Texture) (w h : ℕ) : Prop :=
  t.width = w ∧ t.height = h ∧ t.data.length = w * h

instance (t : Texture) (w h : ℕ) : Decidable (t.wf w h) := by
  unfold Texture.wf; infer_instance

/-- Insertion of a control point into a list sorted ascending by x. -/
def insertCP (p : vec2) : List vec2 → List vec2
  | [] => [p]
  | q :: rest => if p.x ≤ q.x then p :: q :: rest else q :: insertCP p rest

/-- TFEditor.h lines 144-157: both PiecewiseLinear constructors sort the
control points ascending by x (std sort with the comparator a.x < b.x
leaves the order of equal keys unspecified; an insertion sort ascending
by x realizes the same postcondition). -/
def sortCPs : List vec2 → List vec2
  | [] => []
  | p :: rest => insertCP p (sortCPs rest)

/-- TFEditor.h line 141: PiecewiseLinear holds sorted control points and
(from the Function base at line 121) a valueRange defaulting to [0,1]. -/
structure PiecewiseLinear where
  controlPoints : List vec2
  valueRange : box1
deriving DecidableEq

/-- TFEditor.h line 152: the array constructor copies the points and
sorts them by x; valueRange keeps the base-class default {0,1}. -/
def PiecewiseLinear.ofPoints (cps : List vec2) : PiecewiseLinear :=
  ⟨sortCPs cps, ⟨0, 1⟩⟩

/-- TFEditor.h lines 164-176: the scan over consecutive control-point
pairs; a pair is skipped when p1.x > x or p2.x < x, the first remaining
pair linearly interpolates, and a fully skipped list yields 0. -/
def evalScan : List vec2 → ℚ → ℚ
  | p1 :: p2 :: rest, x =>
      if p1.x > x ∨ p2.x < x then evalScan (p2 :: rest) x
      else p1.y + ((p2.y - p1.y) / (p2.x - p1.x)) * (x - p1.x)
  | _, _ => 0

/-- TFEditor.h line 159: eval returns 0 for fewer than 2 control points or
x outside valueRange, and otherwise runs the pair scan. -/
def PiecewiseLinear.eval (pl : PiecewiseLinear) (x : ℚ) : ℚ :=
  if pl.controlPoints.length < 2 ∨ x < pl.valueRange.lower ∨ x > pl.valueRange.upper
  then 0
  else evalScan pl.controlPoints x

/-- TFEditor.h line 183: Tent, defined by tip position, top width and
bottom width. -/
structure Tent where
  tipPos : vec2
  topWidth : ℚ
  bottomWidth : ℚ
deriving DecidableEq

/-- TFEditor.h line 198: initInternal builds the four trapezoid control
points and hands them to the sorting PiecewiseLinear constructor, then
copies the valueRange (the base-class default {0,1}). -/
def Tent.internal (t : Tent) : PiecewiseLinear :=
  ⟨sortCPs
      [⟨t.tipPos.x - t.bottomWidth / 2, 0⟩,
       ⟨t.tipPos.x - t.topWidth / 2, t.tipPos.y⟩,
       ⟨t.tipPos.x + t.topWidth / 2, t.tipPos.y⟩,
       ⟨t.tipPos.x + t.bottomWidth / 2, 0⟩],
    ⟨0, 1⟩⟩

/-- TFEditor.h line 186: the default Tent has tip (0.5, 1), topWidth 0,
bottomWidth 1. -/
def Tent.defaultTent : Tent := ⟨⟨1 / 2, 1⟩, 0, 1⟩

/-- TFEditor.h line 192: Tent.eval forwards to the internal curve. -/
def Tent.eval (t : Tent) (x : ℚ) : ℚ := t.internal.eval x

/-- TFEditor.h line 118: the virtual Function interface; the editor and
the default rasterizer consume only the eval method. -/
structure Function where
  eval : ℚ → ℚ

/-- A PiecewiseLinear as a Function (virtual dispatch resolved). -/
def PiecewiseLinear.toFunction (pl : PiecewiseLinear) : Function :=
  ⟨fun x => pl.eval x⟩

/-- A Tent as a Function (virtual dispatch resolved). -/
def Tent.toFunction (t : Tent) : Function := ⟨fun x => t.eval x⟩

/-- TFEditor.h line 134: the fixed translucent gray fill color packed. -/
def grayPix : ℕ := cvt_uint32v ⟨6 / 10, 6 / 10, 6 / 10, 95 / 100⟩

/-- TFEditor.h line 307: the opaque orange outline color packed. -/
def outlinePix : ℕ := cvt_uint32v ⟨1, 1 / 2, 0, 1⟩

/-- TFEditor.h line 132: the float-to-unsigned conversion of yf * height;
truncation of a nonnegative value is the floor, and a negative value
(undefined in C, spec 4.4 says such columns get no fill) yields 0. -/
def cvtUNat (q : ℚ) : ℕ := (⌊q⌋).toNat

/-- TFEditor.h line 131: the normalized column position x / (width - 1). -/
def normX (w x : ℕ) : ℚ := (x : ℚ) / ((w - 1 : ℕ) : ℚ)

/-- TFEditor.h line 133: the inner row loop of Function.rasterize fills
rows 0 up to yval (exclusive) of column x with the given color. -/
def fillColumn (t : Texture) (x yval c : ℕ) : Texture :=
  (List.range yval).foldl (fun tc y => tc.set x y c) t

/-- TFEditor.h line 127: the default Function.rasterize fills, for each
column, the area under the curve with the fixed gray. -/
def Function.rasterize (f : Function) (w h : ℕ) : Texture :=
  (List.range w).foldl
    (fun t x => fillColumn t x (cvtUNat (f.eval (normX w x) * h)) grayPix)
    (Texture.new w h)

/-- TFEditor.h line 110: the virtual Layer interface reduced to its single
method, rasterize. -/
structure Layer where
  rasterize : ℕ → ℕ → Texture

/-- A Function used as a Layer uses the default rasterizer. -/
def Function.toLayer (f : Function) : Layer := ⟨f.rasterize⟩

/-- TFEditor.h line 227: Checkers background parameters. -/
structure Checkers where
  checkerSize : ℕ
  color1 : vec3
  color2 : vec3

/-- TFEditor.h line 234: Checkers.rasterize paints color1 where the cell
parities of x / cs and y / cs agree and color2 elsewhere, fully opaque. -/
def Checkers.rasterize (c : Checkers) (w h : ℕ) : Texture :=
  (List.range h).foldl
    (fun t y =>
      (List.range w).foldl
        (fun t2 x =>
          t2.set x y
            (cvt_uint32v
              (if (x / c.checkerSize) % 2 = (y / c.checkerSize) % 2 then
                ⟨c.color1.x, c.color1.y, c.color1.z, 1⟩
              else ⟨c.color2.x, c.color2.y, c.color2.z, 1⟩)))
        t)
    (Texture.new w h)

/-- A Checkers as a Layer. -/
def Checkers.toLayer (c : Checkers) : Layer := ⟨c.rasterize⟩

/-- TFEditor.h line 257: the editor state: optional background, ordered
function list, outline flag defaulting to true. -/
structure TFEditor where
  background : Option Layer
  functions : List Function
  showOutline : Bool

/-- TFEditor.h line 260: addFunction appends at the end of the list. -/
def TFEditor.addFunction (s : TFEditor) (f : Function) : TFEditor :=
  ⟨s.background, s.functions ++ [f], s.showOutline⟩

/-- TFEditor.h line 265: setBackground replaces the background. -/
def TFEditor.setBackground (s : TFEditor) (bg : Layer) : TFEditor :=
  ⟨some bg, s.functions, s.showOutline⟩

/-- TFEditor.h line 272: moveToTop has an empty body (TODO comment), so
the state is returned unchanged. -/
def TFEditor.moveToTop (s : TFEditor) (_f : Function) : TFEditor := s

/-- TFEditor.h line 281: the descending index loop of select; index i + 1
examines functions[i] and returns it when pos.y < eval(pos.x). -/
def selectLoop (fs : List Function) (pos : vec2) : ℕ → Option Function
  | 0 => none
  | i + 1 =>
      match fs[i]? with
      | some f => if pos.y < f.eval pos.x then some f else selectLoop fs pos i
      | none => selectLoop fs pos i

/-- TFEditor.h line 279: select runs the loop from the last index down. -/
def TFEditor.select (s : TFEditor) (pos : vec2) : Option Function :=
  selectLoop s.functions pos s.functions.length

/-- TFEditor.h line 323: TFEditor.eval folds fmaxf over all function
values starting from 0. -/
def TFEditor.eval (s : TFEditor) (x : ℚ) : ℚ :=
  s.functions.foldl (fun res f => max res (f.eval x)) 0

/-- The per-pixel content of one layerOver step: dst is the incoming
layer pixel, src the accumulator pixel, and over(src, dst) is stored
(TFEditor.h lines 338-341). -/
def overPix (src dst : ℕ) : ℕ :=
  cvt_uint32v (over (cvt_rgba32f src) (cvt_rgba32f dst))

/-- TFEditor.h line 337: the inner x loop of layerOver over one row y. -/
def overRow (A : Texture) (y : ℕ) (B : Texture) : Texture :=
  (List.range A.width).foldl
    (fun Bc x => Bc.set x y (overPix (Bc.get x y) (A.get x y))) B

/-- TFEditor.h line 334: layerOver(A, B) rewrites every pixel of B with
over(B pixel, A pixel), looping rows over A.height. -/
def layerOver (A B : Texture) : Texture :=
  (List.range A.height).foldl (fun Bc y => overRow A y Bc) B

/-- TFEditor.h lines 290-295: the function-compositing phase of
rasterize: a fresh zero texture, then layerOver with each function layer
in list order. -/
def funcsPhase (s : TFEditor) (w h : ℕ) : Texture :=
  s.functions.foldl (fun tex f => layerOver (f.rasterize w h) tex)
    (Texture.new w h)

/-- TFEditor.h lines 297-299: the background phase: if a background is
set, the accumulated texture is composited over it. -/
def bgPhase (s : TFEditor) (w h : ℕ) (t : Texture) : Texture :=
  match s.background with
  | some bg => layerOver (bg.rasterize w h) t
  | none => t

/-- TFEditor.h lines 301-310: the outline phase plots the envelope in
opaque orange wherever it is positive. -/
def outlinePhase (s : TFEditor) (w h : ℕ) (t : Texture) : Texture :=
  if s.showOutline then
    (List.range w).foldl
      (fun tc x =>
        if s.eval (normX w x) > 0 then
          tc.set x (cvtUNat (s.eval (normX w x) * h)) outlinePix
        else tc)
      t
  else t

/-- TFEditor.h line 288: rasterize is the three phases in order. -/
def TFEditor.rasterize (s : TFEditor) (w h : ℕ) : Texture :=
  outlinePhase s w h (bgPhase s w h (funcsPhase s w h))

/-! ### Basic texture lemmas -/

theorem Texture.wf_set {t : Texture} {w h : ℕ} (hw : t.wf w h) (x y v : ℕ) :
    (t.set x y v).wf w h := by
  obtain ⟨h1, h2, h3⟩ := hw
  exact ⟨h1, h2, by simpa [Texture.set] using h3⟩

theorem Texture.wf_new (w h : ℕ) : (Texture.new w h).wf w h :=
  ⟨rfl, rfl, by simp [Texture.new]⟩

theorem Texture.get_new (w h x y : ℕ) : (Texture.new w h).get x y = 0 := by
  unfold Texture.get Texture.new
  rw [List.getD_eq_getElem?_getD, List.getElem?_replicate]
  split <;> rfl

theorem Texture.flip_lt {t : Texture} {h : ℕ} (hH : t.height = h)
    (hU : h ≤ U32) {y : ℕ} (hy : y < h) : t.flip y = h - 1 - y := by
  unfold Texture.flip
  rw [hH]
  have hyU : y % U32 = y := Nat.mod_eq_of_lt (lt_of_lt_of_le hy hU)
  rw [hyU]
  have e1 : h + (U32 - y) - 1 = (h - 1 - y) + 1 * U32 := by
    have : 1 ≤ U32 - y := by omega
    omega
  rw [e1, Nat.add_mul_mod_self_right]
  exact Nat.mod_eq_of_lt (by omega)

theorem Texture.flip_ge {t : Texture} {h : ℕ} (hH : t.height = h)
    {y : ℕ} (hy : h ≤ y) (hyU : y < U32) : h ≤ t.flip y ∧ t.flip y < U32 := by
  unfold Texture.flip
  rw [hH, Nat.mod_eq_of_lt hyU]
  have e1 : h + (U32 - y) - 1 = U32 - (y + 1 - h) := by omega
  rw [e1, Nat.mod_eq_of_lt (by omega)]
  omega

theorem Texture.index_lt {t : Texture} {w h : ℕ} (hw : t.wf w h)
    (hU : h ≤ U32) {x y : ℕ} (hx : x < w) (hy : y < h) :
    t.linearIndex x (t.flip y) < t.data.length := by
  obtain ⟨h1, h2, h3⟩ := hw
  rw [Texture.flip_lt h2 hU hy, h3]
  unfold Texture.linearIndex
  rw [h1]
  have hk : (h - 1 - y) + 1 ≤ h := by omega
  have hmul : w * ((h - 1 - y) + 1) ≤ w * h := Nat.mul_le_mul_left w hk
  have hring : w * ((h - 1 - y) + 1) = w * (h - 1 - y) + w := by ring
  omega

theorem Texture.get_set_same {t : Texture} {w h : ℕ} (hw : t.wf w h)
    (hU : h ≤ U32) {x y : ℕ} (hx : x < w) (hy : y < h) (v : ℕ) :
    (t.set x y v).get x y = v := by
  have hidx := Texture.index_lt hw hU hx hy
  show (t.data.set (t.linearIndex x (t.flip y)) v).getD
      ((t.set x y v).linearIndex x ((t.set x y v).flip y)) 0 = v
  have hsame : (t.set x y v).linearIndex x ((t.set x y v).flip y)
      = t.linearIndex x (t.flip y) := rfl
  rw [hsame, List.getD_eq_getElem?_getD, List.getElem?_set_self hidx]
  rfl

theorem Texture.index_inj {t : Texture} {w h : ℕ} (hw : t.wf w h)
    (hU : h ≤ U32) {x y xp yp : ℕ} (hx : x < w) (hy : y < h)
    (hxp : xp < w) (hyp : yp < h)
    (heq : t.linearIndex x (t.flip y) = t.linearIndex xp (t.flip yp)) :
    x = xp ∧ y = yp := by
  obtain ⟨h1, h2, h3⟩ := hw
  rw [Texture.flip_lt h2 hU hy, Texture.flip_lt h2 hU hyp] at heq
  unfold Texture.linearIndex at heq
  rw [h1] at heq
  have hwpos : 0 < w := Nat.lt_of_le_of_lt (Nat.zero_le x) hx
  have hxeq : x = xp := by
    have e1 : (x + w * (h - 1 - y)) % w = x % w := Nat.add_mul_mod_self_left x w _
    have e2 : (xp + w * (h - 1 - yp)) % w = xp % w := Nat.add_mul_mod_self_left xp w _
    rw [heq, e2] at e1
    rw [Nat.mod_eq_of_lt hxp, Nat.mod_eq_of_lt hx] at e1
    exact e1.symm
  subst hxeq
  have hrow : w * (h - 1 - y) = w * (h - 1 - yp) := by omega
  have := Nat.eq_of_mul_eq_mul_left hwpos hrow
  omega

theorem Texture.get_set_ne {t : Texture} {w h : ℕ} (hw : t.wf w h)
    (hU : h ≤ U32) {x y xp yp : ℕ} (hx : x < w) (hy : y < h)
    (hxp : xp < w) (hyp : yp < h) (hne : ¬(xp = x ∧ yp = y)) (v : ℕ) :
    (t.set x y v).get xp yp = t.get xp yp := by
  show (t.data.set (t.linearIndex x (t.flip y)) v).getD
      ((t.set x y v).linearIndex xp ((t.set x y v).flip yp)) 0 = t.get xp yp
  have hsame : (t.set x y v).linearIndex xp ((t.set x y v).flip yp)
      = t.linearIndex xp (t.flip yp) := rfl
  rw [hsame]
  have hneidx : t.linearIndex x (t.flip y) ≠ t.linearIndex xp (t.flip yp) := by
    intro hcon
    obtain ⟨e1, e2⟩ := Texture.index_inj hw hU hx hy hxp hyp hcon
    exact hne ⟨e1.symm, e2.symm⟩
  unfold Texture.get
  rw [List.getD_eq_getElem?_getD, List.getD_eq_getElem?_getD,
    List.getElem?_set_ne hneidx]

theorem Texture.set_oob {t : Texture} {w h : ℕ} (hw : t.wf w h)
    {y : ℕ} (hy : h ≤ y) (hyU : y < U32) (x v : ℕ) : t.set x y v = t := by
  obtain ⟨h1, h2, h3⟩ := hw
  obtain ⟨hge, _⟩ := Texture.flip_ge h2 hy hyU
  have hlen : t.data.length ≤ t.linearIndex x (t.flip y) := by
    unfold Texture.linearIndex
    rw [h3, h1]
    rcases Nat.eq_zero_or_pos w with hw0 | hwpos
    · simp [hw0]
    · have : w * h ≤ w * t.flip y := Nat.mul_le_mul_left w hge
      omega
  show (⟨t.width, t.height, t.data.set (t.linearIndex x (t.flip y)) v⟩ : Texture) = t
  rw [List.set_eq_of_length_le hlen]

/-- Folding a texture-valued step function preserves any invariant the
step preserves. -/
theorem foldl_texture_inv {α : Type} (P : Texture → Prop) {f : Texture → α → Texture}
    (hf : ∀ t a, P t → P (f t a)) :
    ∀ (l : List α) (t : Texture), P t → P (l.foldl f t) := by
  intro l
  induction l with
  | nil => intro t ht; exact ht
  | cons a tl ih => intro t ht; exact ih (f t a) (hf t a ht)

/-! ### Well-formedness of the rasterizing loops -/

theorem fillColumn_wf {t : Texture} {w h : ℕ} (hw : t.wf w h) (x yval c : ℕ) :
    (fillColumn t x yval c).wf w h := by
  unfold fillColumn
  exact foldl_texture_inv (fun tc => tc.wf w h) (fun tc y ht => Texture.wf_set ht x y c) (List.range yval) t hw

theorem Function.rasterizeFn_wf (f : Function) (w h : ℕ) :
    (f.rasterize w h).wf w h := by
  unfold Function.rasterize
  exact foldl_texture_inv (fun tc => tc.wf w h) (fun t x ht => fillColumn_wf ht x _ grayPix)
    (List.range w) (Texture.new w h) (Texture.wf_new w h)

theorem overRow_wf (A : Texture) {B : Texture} {w h : ℕ} (hB : B.wf w h) (y : ℕ) :
    (overRow A y B).wf w h := by
  unfold overRow
  exact foldl_texture_inv (fun tc => tc.wf w h) (fun Bc x ht => Texture.wf_set ht x y _)
    (List.range A.width) B hB

theorem layerOver_wf (A : Texture) {B : Texture} {w h : ℕ} (hB : B.wf w h) :
    (layerOver A B).wf w h := by
  unfold layerOver
  exact foldl_texture_inv (fun tc => tc.wf w h) (fun Bc y ht => overRow_wf A ht y) (List.range A.height) B hB

theorem Checkers.rasterizeBg_wf (c : Checkers) (w h : ℕ) :
    (c.rasterize w h).wf w h := by
  unfold Checkers.rasterize
  refine foldl_texture_inv (fun tc => tc.wf w h) ?_ (List.range h)
    (Texture.new w h) (Texture.wf_new w h)
  intro t y ht
  exact foldl_texture_inv (fun tc => tc.wf w h)
    (fun t2 x ht2 => Texture.wf_set ht2 x y _) (List.range w) t ht

theorem funcsPhase_wf (s : TFEditor) (w h : ℕ) : (funcsPhase s w h).wf w h := by
  unfold funcsPhase
  exact foldl_texture_inv (fun tc => tc.wf w h) (fun tex f ht => layerOver_wf (f.rasterize w h) ht)
    s.functions (Texture.new w h) (Texture.wf_new w h)

/-! ### Pointwise characterization of the loops -/

theorem fillColumn_succ (t : Texture) (x n c : ℕ) :
    fillColumn t x (n + 1) c = (fillColumn t x n c).set x n c := by
  unfold fillColumn
  rw [List.range_succ, List.foldl_append]
  rfl

theorem fillColumn_get {t : Texture} {w h : ℕ} (hw : t.wf w h) (hU : h < U32)
    {x : ℕ} (hx : x < w) {yval : ℕ} (hyv : yval ≤ U32) (c : ℕ)
    {xp yp : ℕ} (hxp : xp < w) (hyp : yp < h) :
    (fillColumn t x yval c).get xp yp
      = if xp = x ∧ yp < yval then c else t.get xp yp := by
  induction yval with
  | zero => simp [fillColumn]
  | succ n ih =>
      rw [fillColumn_succ]
      have hwn : (fillColumn t x n c).wf w h := fillColumn_wf hw x n c
      rcases Nat.lt_or_ge n h with hnh | hnh
      · by_cases hcase : xp = x ∧ yp = n
        · obtain ⟨e1, e2⟩ := hcase
          subst e1; subst e2
          rw [Texture.get_set_same hwn (le_of_lt hU) hx hnh c]
          simp
        · rw [Texture.get_set_ne hwn (le_of_lt hU) hx hnh hxp hyp hcase c,
            ih (by omega)]
          by_cases h1 : xp = x ∧ yp < n
          · simp only [if_pos h1, if_pos (show xp = x ∧ yp < n + 1 by omega)]
          · have h2 : ¬(xp = x ∧ yp < n + 1) := by
              intro hcon
              rcases Nat.lt_or_ge yp n with hlt | hge
              · exact h1 ⟨hcon.1, hlt⟩
              · exact hcase ⟨hcon.1, by omega⟩
            rw [if_neg h1, if_neg h2]
      · rw [Texture.set_oob hwn hnh (by omega) x c, ih (by omega)]
        have hyplt : yp < n ↔ yp < n + 1 := by omega
        by_cases h1 : xp = x ∧ yp < n
        · rw [if_pos h1, if_pos ⟨h1.1, by omega⟩]
        · rw [if_neg h1, if_neg (by rw [← hyplt] at *; exact h1)]

/-- The row count the default rasterizer fills in column x. -/
def yvalAt (f : Function) (w h x : ℕ) : ℕ := cvtUNat (f.eval (normX w x) * h)

theorem rasterizeLoop_get (f : Function) (w h : ℕ) (hU : h < U32)
    (hb : ∀ xp, xp < w → yvalAt f w h xp ≤ U32) :
    ∀ m, m ≤ w → ∀ {xp yp : ℕ}, xp < w → yp < h →
      ((List.range m).foldl
          (fun t x => fillColumn t x (cvtUNat (f.eval (normX w x) * h)) grayPix)
          (Texture.new w h)).get xp yp
        = if xp < m ∧ yp < yvalAt f w h xp then grayPix else 0 := by
  unfold yvalAt at hb ⊢
  intro m
  induction m with
  | zero =>
      intro _ xp yp hxp hyp
      simp [Texture.get_new]
  | succ n ih =>
      intro hm xp yp hxp hyp
      rw [List.range_succ, List.foldl_append]
      have hwn : ((List.range n).foldl
          (fun t x => fillColumn t x (cvtUNat (f.eval (normX w x) * h)) grayPix)
          (Texture.new w h)).wf w h := by
        exact foldl_texture_inv (fun tc => tc.wf w h)
          (fun t x ht => fillColumn_wf ht x _ grayPix) (List.range n)
          (Texture.new w h) (Texture.wf_new w h)
      show (fillColumn _ n (cvtUNat (f.eval (normX w n) * h)) grayPix).get xp yp = _
      rw [fillColumn_get hwn hU (show n < w by omega) (hb n (by omega)) grayPix hxp hyp,
        ih (by omega) hxp hyp]
      by_cases hc1 : xp = n
      · subst hc1
        by_cases hc2 : yp < cvtUNat (f.eval (normX w xp) * h)
        · rw [if_pos ⟨rfl, hc2⟩, if_pos ⟨by omega, hc2⟩]
        · rw [if_neg (by exact fun hcon => hc2 hcon.2), if_neg (by omega),
            if_neg (by exact fun hcon => hc2 hcon.2)]
      · rw [if_neg (by exact fun hcon => hc1 hcon.1)]
        by_cases hc2 : xp < n ∧ yp < cvtUNat (f.eval (normX w xp) * h)
        · rw [if_pos hc2, if_pos ⟨by omega, hc2.2⟩]
        · rw [if_neg hc2,
            if_neg (by exact fun hcon => hc2 ⟨by omega, hcon.2⟩)]

theorem Function.rasterize_get (f : Function) {w h : ℕ} (hU : h < U32)
    (hb : ∀ xp, xp < w → yvalAt f w h xp ≤ U32)
    {x y : ℕ} (hx : x < w) (hy : y < h) :
    (f.rasterize w h).get x y
      = if y < cvtUNat (f.eval (normX w x) * h) then grayPix else 0 := by
  unfold Function.rasterize
  rw [rasterizeLoop_get f w h hU hb w (le_refl w) hx hy]
  unfold yvalAt
  by_cases hc : y < cvtUNat (f.eval (normX w x) * h)
  · rw [if_pos ⟨hx, hc⟩, if_pos hc]
  · rw [if_neg (fun hcon => hc hcon.2), if_neg hc]

/-! ### layerOver characterization -/

theorem overRowLoop_get {A B : Texture} {w h : ℕ} (_hA : A.wf w h) (hB : B.wf w h)
    (hU : h < U32) {y : ℕ} (hy : y < h) :
    ∀ m, m ≤ w → ∀ {xp yp : ℕ}, xp < w → yp < h →
      ((List.range m).foldl
          (fun Bc x => Bc.set x y (overPix (Bc.get x y) (A.get x y))) B).get xp yp
        = if xp < m ∧ yp = y then overPix (B.get xp y) (A.get xp y)
          else B.get xp yp := by
  intro m
  induction m with
  | zero =>
      intro _ xp yp hxp hyp
      simp
  | succ n ih =>
      intro hm xp yp hxp hyp
      rw [List.range_succ, List.foldl_append]
      have hwn : ((List.range n).foldl
          (fun Bc x => Bc.set x y (overPix (Bc.get x y) (A.get x y))) B).wf w h := by
        exact foldl_texture_inv (fun tc => tc.wf w h)
          (fun Bc x ht => Texture.wf_set ht x y _) (List.range n) B hB
      simp only [List.foldl_cons, List.foldl_nil]
      have hgn : ((List.range n).foldl
          (fun Bc x => Bc.set x y (overPix (Bc.get x y) (A.get x y))) B).get n y
          = B.get n y := by
        rw [ih (by omega) (by omega) hy, if_neg (by omega)]
      rw [hgn]
      by_cases hcase : xp = n ∧ yp = y
      · obtain ⟨e1, e2⟩ := hcase
        subst e1; subst e2
        rw [Texture.get_set_same hwn (le_of_lt hU) (by omega) hy _]
        rw [if_pos ⟨by omega, rfl⟩]
      · rw [Texture.get_set_ne hwn (le_of_lt hU) (by omega) hy hxp hyp hcase _,
          ih (by omega) hxp hyp]
        by_cases hc2 : xp < n ∧ yp = y
        · rw [if_pos hc2, if_pos ⟨by omega, hc2.2⟩]
        · have : ¬(xp < n + 1 ∧ yp = y) := by
            intro hcon
            rcases Nat.lt_or_ge xp n with hlt | hge
            · exact hc2 ⟨hlt, hcon.2⟩
            · exact hcase ⟨by omega, hcon.2⟩
          rw [if_neg hc2, if_neg this]

theorem overRow_get {A B : Texture} {w h : ℕ} (hA : A.wf w h) (hB : B.wf w h)
    (hU : h < U32) {y : ℕ} (hy : y < h) {xp yp : ℕ} (hxp : xp < w) (hyp : yp < h) :
    (overRow A y B).get xp yp
      = if yp = y then overPix (B.get xp y) (A.get xp y) else B.get xp yp := by
  unfold overRow
  rw [hA.1, overRowLoop_get hA hB hU hy w (le_refl w) hxp hyp]
  by_cases hc : yp = y
  · rw [if_pos ⟨hxp, hc⟩, if_pos hc]
  · rw [if_neg (fun hcon => hc hcon.2), if_neg hc]

theorem layerOverLoop_get {A B : Texture} {w h : ℕ} (hA : A.wf w h) (hB : B.wf w h)
    (hU : h < U32) :
    ∀ m, m ≤ h → ∀ {xp yp : ℕ}, xp < w → yp < h →
      ((List.range m).foldl (fun Bc y => overRow A y Bc) B).get xp yp
        = if yp < m then overPix (B.get xp yp) (A.get xp yp) else B.get xp yp := by
  intro m
  induction m with
  | zero =>
      intro _ xp yp hxp hyp
      simp
  | succ n ih =>
      intro hm xp yp hxp hyp
      rw [List.range_succ, List.foldl_append]
      have hwn : ((List.range n).foldl (fun Bc y => overRow A y Bc) B).wf w h := by
        exact foldl_texture_inv (fun tc => tc.wf w h)
          (fun Bc y ht => overRow_wf A ht y) (List.range n) B hB
      show (overRow A n _).get xp yp = _
      rw [overRow_get hA hwn hU (by omega) hxp hyp]
      have hgn : ((List.range n).foldl (fun Bc y => overRow A y Bc) B).get xp n
          = B.get xp n := by
        rw [ih (by omega) hxp (by omega), if_neg (by omega)]
      by_cases hc : yp = n
      · subst hc
        rw [if_pos rfl, hgn, if_pos (by omega)]
      · rw [if_neg hc, ih (by omega) hxp hyp]
        by_cases hc2 : yp < n
        · rw [if_pos hc2, if_pos (by omega)]
        · rw [if_neg hc2, if_neg (by omega)]

theorem layerOver_get {A B : Texture} {w h : ℕ} (hA : A.wf w h) (hB : B.wf w h)
    (hU : h < U32) {x y : ℕ} (hx : x < w) (hy : y < h) :
    (layerOver A B).get x y = overPix (B.get x y) (A.get x y) := by
  unfold layerOver
  rw [hA.2.1, layerOverLoop_get hA hB hU h (le_refl h) hx hy, if_pos hy]

/-! ### Function-compositing fold characterization -/

theorem foldFuncs_get {w h : ℕ} (hU : h < U32) :
    ∀ (fs : List Function) (t : Texture), t.wf w h → ∀ {x y : ℕ}, x < w → y < h →
      (fs.foldl (fun tex f => layerOver (f.rasterize w h) tex) t).get x y
        = fs.foldl (fun a f => overPix a ((f.rasterize w h).get x y)) (t.get x y) := by
  intro fs
  induction fs with
  | nil => intro t ht x y hx hy; rfl
  | cons f fs ih =>
      intro t ht x y hx hy
      simp only [List.foldl_cons]
      rw [ih (layerOver (f.rasterize w h) t)
          (layerOver_wf (f.rasterize w h) ht) hx hy,
        layerOver_get (Function.rasterizeFn_wf f w h) ht hU hx hy]

/-! ### Outline loop characterization -/

theorem outlineLoop_get (s : TFEditor) (w h : ℕ) (hU : h < U32)
    (hb : ∀ xp, xp < w → cvtUNat (s.eval (normX w xp) * h) < U32)
    (t : Texture) (ht : t.wf w h) :
    ∀ m, m ≤ w → ∀ {xp yp : ℕ}, xp < w → yp < h →
      ((List.range m).foldl
          (fun tc x =>
            if s.eval (normX w x) > 0 then
              tc.set x (cvtUNat (s.eval (normX w x) * h)) outlinePix
            else tc) t).get xp yp
        = if xp < m ∧ s.eval (normX w xp) > 0 ∧ yp = cvtUNat (s.eval (normX w xp) * h)
          then outlinePix else t.get xp yp := by
  intro m
  induction m with
  | zero =>
      intro _ xp yp hxp hyp
      simp
  | succ n ih =>
      intro hm xp yp hxp hyp
      rw [List.range_succ, List.foldl_append]
      have hwn : ((List.range n).foldl
          (fun tc x =>
            if s.eval (normX w x) > 0 then
              tc.set x (cvtUNat (s.eval (normX w x) * h)) outlinePix
            else tc) t).wf w h := by
        refine foldl_texture_inv (fun tc => tc.wf w h) ?_ (List.range n) t ht
        intro tc a htc
        by_cases hc : s.eval (normX w a) > 0
        · rw [if_pos hc]; exact Texture.wf_set htc _ _ _
        · rw [if_neg hc]; exact htc
      simp only [List.foldl_cons, List.foldl_nil]
      by_cases hpos : s.eval (normX w n) > 0
      · rw [if_pos hpos]
        rcases Nat.lt_or_ge (cvtUNat (s.eval (normX w n) * h)) h with hrow | hrow
        · by_cases hcase : xp = n ∧ yp = cvtUNat (s.eval (normX w n) * h)
          · obtain ⟨e1, e2⟩ := hcase
            subst e1; subst e2
            rw [Texture.get_set_same hwn (le_of_lt hU) (by omega) hrow _]
            rw [if_pos ⟨by omega, hpos, rfl⟩]
          · rw [Texture.get_set_ne hwn (le_of_lt hU) (by omega) hrow hxp hyp hcase _,
              ih (by omega) hxp hyp]
            by_cases hc2 : xp < n ∧ s.eval (normX w xp) > 0
                ∧ yp = cvtUNat (s.eval (normX w xp) * h)
            · rw [if_pos hc2, if_pos ⟨by omega, hc2.2⟩]
            · have : ¬(xp < n + 1 ∧ s.eval (normX w xp) > 0
                  ∧ yp = cvtUNat (s.eval (normX w xp) * h)) := by
                intro hcon
                rcases Nat.lt_or_ge xp n with hlt | hge
                · exact hc2 ⟨hlt, hcon.2⟩
                · have hxn : xp = n := by omega
                  exact hcase ⟨hxn, by rw [← hxn]; exact hcon.2.2⟩
              rw [if_neg hc2, if_neg this]
        · rw [Texture.set_oob hwn hrow (hb n (by omega)) _ _, ih (by omega) hxp hyp]
          by_cases hc2 : xp < n ∧ s.eval (normX w xp) > 0
              ∧ yp = cvtUNat (s.eval (normX w xp) * h)
          · rw [if_pos hc2, if_pos ⟨by omega, hc2.2⟩]
          · have : ¬(xp < n + 1 ∧ s.eval (normX w xp) > 0
                ∧ yp = cvtUNat (s.eval (normX w xp) * h)) := by
              intro hcon
              rcases Nat.lt_or_ge xp n with hlt | hge
              · exact hc2 ⟨hlt, hcon.2⟩
              · have hxn : xp = n := by omega
                rw [hxn] at hcon
                omega
            rw [if_neg hc2, if_neg this]
      · rw [if_neg hpos, ih (by omega) hxp hyp]
        by_cases hc2 : xp < n ∧ s.eval (normX w xp) > 0
            ∧ yp = cvtUNat (s.eval (normX w xp) * h)
        · rw [if_pos hc2, if_pos ⟨by omega, hc2.2⟩]
        · have : ¬(xp < n + 1 ∧ s.eval (normX w xp) > 0
              ∧ yp = cvtUNat (s.eval (normX w xp) * h)) := by
            intro hcon
            rcases Nat.lt_or_ge xp n with hlt | hge
            · exact hc2 ⟨hlt, hcon.2⟩
            · have hxn : xp = n := by omega
              rw [hxn] at hcon
              exact hpos hcon.2.1
          rw [if_neg hc2, if_neg this]

/-! ### Spec-level restatements (from the words of the spec) -/

/-- Spec 4.3 in its own words: the first consecutive pair (p1, p2) with
p1.x <= x <= p2.x determines the linear interpolation
p1.y + (p2.y - p1.y) / (p2.x - p1.x) * (x - p1.x); 0 for fewer than 2
points, out-of-domain x, or no covering pair. -/
def PiecewiseLinear.evalSpec (pl : PiecewiseLinear) (x : ℚ) : ℚ :=
  if pl.controlPoints.length < 2 ∨ x < pl.valueRange.lower ∨ x > pl.valueRange.upper
  then 0
  else
    match (pl.controlPoints.zip pl.controlPoints.tail).find?
        (fun pq => decide (pq.1.x ≤ x ∧ x ≤ pq.2.x)) with
    | some pq => pq.1.y + ((pq.2.y - pq.1.y) / (pq.2.x - pq.1.x)) * (x - pq.1.x)
    | none => 0

/-- Spec 4.6 in its own words: select iterates the list from last-added
to first and returns the first function whose value at pos.x strictly
exceeds pos.y. -/
def TFEditor.selectSpec (s : TFEditor) (pos : vec2) : Option Function :=
  s.functions.reverse.find? (fun f => decide (pos.y < f.eval pos.x))

/-- Spec 4.6 in its own words: the pointwise maximum of the function
values, 0 if no functions are registered (the maximum of the value list
when nonempty). -/
def TFEditor.evalSpecMax (s : TFEditor) (x : ℚ) : ℚ :=
  match (s.functions.map (fun f => f.eval x)).max? with
  | some m => m
  | none => 0

theorem evalScan_eq_find (x : ℚ) :
    ∀ l : List vec2, evalScan l x
      = (match (l.zip l.tail).find? (fun pq => decide (pq.1.x ≤ x ∧ x ≤ pq.2.x)) with
         | some pq => pq.1.y + ((pq.2.y - pq.1.y) / (pq.2.x - pq.1.x)) * (x - pq.1.x)
         | none => (0 : ℚ)) := by
  intro l
  induction l with
  | nil => rfl
  | cons p1 tl ih =>
      cases tl with
      | nil => rfl
      | cons p2 rest =>
          show evalScan (p1 :: p2 :: rest) x = _
          have hzip : (p1 :: p2 :: rest).zip (p1 :: p2 :: rest).tail
              = (p1, p2) :: (p2 :: rest).zip rest := rfl
          rw [hzip, List.find?_cons]
          by_cases hc : p1.x ≤ x ∧ x ≤ p2.x
          · have hb : decide (p1.x ≤ x ∧ x ≤ p2.x) = true := by
              exact decide_eq_true hc
            rw [evalScan, if_neg (by push_neg; exact ⟨by linarith [hc.1], by linarith [hc.2]⟩)]
            simp only [hb]
          · have hb : decide (p1.x ≤ x ∧ x ≤ p2.x) = false := by
              exact decide_eq_false hc
            have hor : p1.x > x ∨ p2.x < x := by
              by_contra hcon
              push_neg at hcon
              exact hc ⟨by linarith [hcon.1], by linarith [hcon.2]⟩
            rw [evalScan, if_pos hor]
            simp only [hb]
            exact ih

theorem selectLoop_eq (fs : List Function) (pos : vec2) :
    ∀ n, n ≤ fs.length →
      selectLoop fs pos n
        = ((fs.take n).reverse).find? (fun f => decide (pos.y < f.eval pos.x)) := by
  intro n
  induction n with
  | zero => intro _; rfl
  | succ n ih =>
      intro hn
      have hlt : n < fs.length := by omega
      have hget : fs[n]? = some fs[n] := List.getElem?_eq_getElem hlt
      show (match fs[n]? with
            | some f => if pos.y < f.eval pos.x then some f else selectLoop fs pos n
            | none => selectLoop fs pos n) = _
      rw [hget]
      have htake : (fs.take (n + 1)).reverse
          = fs[n] :: (fs.take n).reverse := by
        rw [List.take_succ, hget]
        simp [List.reverse_append]
      rw [htake, List.find?_cons]
      by_cases hc : pos.y < fs[n].eval pos.x
      · simp only [decide_eq_true hc, if_pos hc]
      · simp only [decide_eq_false hc, if_neg hc]
        exact ih (by omega)

/-- Folding max from an arbitrary seed commutes with foldr (max is
commutative and associative). -/
theorem foldr_max_pull (a : ℚ) :
    ∀ (l : List ℚ) (b : ℚ), l.foldr max (max a b) = max a (l.foldr max b) := by
  intro l
  induction l with
  | nil => intro b; rfl
  | cons c l ih =>
      intro b
      show max c (l.foldr max (max a b)) = max a (max c (l.foldr max b))
      rw [ih b]
      rw [max_left_comm]

theorem foldl_max_eq_foldr (l : List ℚ) : ∀ a : ℚ, l.foldl max a = l.foldr max a := by
  induction l with
  | nil => intro a; rfl
  | cons c l ih =>
      intro a
      show l.foldl max (max a c) = max c (l.foldr max a)
      rw [ih (max a c), max_comm a c, foldr_max_pull]

/-! ### Concrete states from the bundled example (src/examples/simple/main.cpp) -/

/-- The piecewise-linear curve of the simple example: control points
(0,1), (0.3,0.8), (1,1). -/
def plExample : PiecewiseLinear :=
  PiecewiseLinear.ofPoints [⟨0, 1⟩, ⟨3 / 10, 8 / 10⟩, ⟨1, 1⟩]

/-- The checkers background of the simple example: cell size 16, black
and white. -/
def checkersExample : Checkers := ⟨16, ⟨0, 0, 0⟩, ⟨1, 1, 1⟩⟩

/-- The editor state the simple example rasterizes at 256 x 128. -/
def exampleEditor : TFEditor :=
  ⟨some checkersExample.toLayer,
    [plExample.toFunction, Tent.defaultTent.toFunction], true⟩

/-- A 1-pixel-cell checkers background for small concrete instances. -/
def checkersSmall : Checkers := ⟨1, ⟨0, 0, 0⟩, ⟨1, 1, 1⟩⟩

/-- A small editor state with one function and a background. -/
def smallEditor : TFEditor :=
  ⟨some checkersSmall.toLayer, [plExample.toFunction], true⟩

/-- An editor holding only the default tent, no background. -/
def tentEditor : TFEditor := ⟨none, [Tent.defaultTent.toFunction], true⟩

/-- A curve that is constantly -1 on its domain (control points (0,-1)
and (1,-1)). -/
def negPL : PiecewiseLinear := PiecewiseLinear.ofPoints [⟨0, -1⟩, ⟨1, -1⟩]

/-- An editor holding only the constantly negative curve. -/
def negEditor : TFEditor := ⟨none, [negPL.toFunction], true⟩

/-- A function that evaluates to 0 at position 0. -/
def fnLow : Function := (PiecewiseLinear.ofPoints [⟨0, 0⟩, ⟨1, 0⟩]).toFunction

/-- A function that evaluates to 1 at position 0. -/
def fnTop : Function := (PiecewiseLinear.ofPoints [⟨0, 1⟩, ⟨1, 1⟩]).toFunction

/-- An editor where fnLow sits at the bottom of the stack and fnTop on
top. -/
def stackedEditor : TFEditor := ⟨none, [fnLow, fnTop], true⟩

/-! ### The claims -/

/-- Claim C1: rasterize starts from an all-zero image and, for each
registered function in list order, replaces each accumulator pixel by
over(accumulator, layer) with the accumulator as the src operand;
afterwards, if a background is set, the accumulated result is composited
over the rasterized background. -/
theorem rasterize_composites_under_then_background
    (s : TFEditor) (w h x y : ℕ) (hx : x < w) (hy : y < h) (hU : h < U32)
    (hbg : ∀ bg, s.background = some bg → (bg.rasterize w h).wf w h) :
    (funcsPhase s w h).get x y
        = s.functions.foldl (fun a f => overPix a ((f.rasterize w h).get x y)) 0
      ∧ (bgPhase s w h (funcsPhase s w h)).get x y
          = s.background.elim
              (s.functions.foldl (fun a f => overPix a ((f.rasterize w h).get x y)) 0)
              (fun bg => overPix
                (s.functions.foldl (fun a f => overPix a ((f.rasterize w h).get x y)) 0)
                ((bg.rasterize w h).get x y)) := by
  have hfp : (funcsPhase s w h).get x y
      = s.functions.foldl (fun a f => overPix a ((f.rasterize w h).get x y)) 0 := by
    unfold funcsPhase
    rw [foldFuncs_get hU s.functions (Texture.new w h) (Texture.wf_new w h) hx hy,
      Texture.get_new]
  refine ⟨hfp, ?_⟩
  unfold bgPhase
  cases hbgc : s.background with
  | none => simpa using hfp
  | some bg =>
      simp only [Option.elim]
      rw [layerOver_get (hbg bg hbgc) (funcsPhase_wf s w h) hU hx hy, hfp]

/-- Witness for C1 at a concrete editor state and output size. -/
theorem rasterize_composites_witness :
    (bgPhase smallEditor 2 2 (funcsPhase smallEditor 2 2)).get 0 1
      = overPix
          (smallEditor.functions.foldl
            (fun a f => overPix a ((f.rasterize 2 2).get 0 1)) 0)
          ((checkersSmall.toLayer.rasterize 2 2).get 0 1) := by
  have h := rasterize_composites_under_then_background smallEditor 2 2 0 1
    (by decide) (by decide) (by decide)
    (fun bg hbg => by
      have h2 : checkersSmall.toLayer = bg := by injection hbg
      rw [← h2]
      exact Checkers.rasterizeBg_wf checkersSmall 2 2)
  exact h.2

/-- Claim C2: PiecewiseLinear.eval returns 0 for fewer than 2 control
points or x outside valueRange, and otherwise interpolates at the first
consecutive pair covering x (0 when no pair covers x). -/
theorem piecewiseLinear_eval_spec (pl : PiecewiseLinear) (x : ℚ) :
    pl.eval x = pl.evalSpec x := by
  unfold PiecewiseLinear.eval PiecewiseLinear.evalSpec
  split
  · rfl
  · exact evalScan_eq_find x pl.controlPoints

/-- Claim C3 (code bug): the body of moveToTop is an empty TODO, so the
state is left unchanged even when the argument is present and not
topmost, contradicting the contract in the source doc comment. -/
theorem moveToTop_is_noop :
    TFEditor.moveToTop stackedEditor fnLow = stackedEditor
      ∧ stackedEditor.functions = [fnLow, fnTop]
      ∧ fnLow ≠ fnTop := by
  refine ⟨rfl, rfl, ?_⟩
  intro hcon
  have h2 : fnLow.eval 0 = fnTop.eval 0 := by rw [hcon]
  have h3 : fnLow.eval 0 = 0 := by
    norm_num [fnLow, PiecewiseLinear.toFunction, PiecewiseLinear.eval,
      PiecewiseLinear.ofPoints, sortCPs, insertCP, evalScan]
  have h4 : fnTop.eval 0 = 1 := by
    norm_num [fnTop, PiecewiseLinear.toFunction, PiecewiseLinear.eval,
      PiecewiseLinear.ofPoints, sortCPs, insertCP, evalScan]
  rw [h3, h4] at h2
  exact absurd h2 (by norm_num)

/-- Claim C4: at the bundled example state the envelope evaluates to 1
at column 0, the outline row index yf * height equals height = 128, the
unsigned flip underflows to 2 ^ 32 - 1, the resulting linear index lies
past the end of the pixel vector, and the checked store writes
nothing. -/
theorem outline_out_of_bounds_at_full_alpha :
    TFEditor.eval exampleEditor (normX 256 0) = 1
      ∧ cvtUNat (TFEditor.eval exampleEditor (normX 256 0) * 128) = 128
      ∧ (Texture.new 256 128).flip 128 = U32 - 1
      ∧ (Texture.new 256 128).data.length
          ≤ (Texture.new 256 128).linearIndex 0 ((Texture.new 256 128).flip 128)
      ∧ (Texture.new 256 128).set 0 128 outlinePix = Texture.new 256 128 := by
  have heval : TFEditor.eval exampleEditor (normX 256 0) = 1 := by
    norm_num [TFEditor.eval, exampleEditor, plExample, Tent.defaultTent,
      Tent.toFunction, Tent.eval, Tent.internal, PiecewiseLinear.toFunction,
      PiecewiseLinear.eval, PiecewiseLinear.ofPoints, sortCPs, insertCP,
      evalScan, normX]
  refine ⟨heval, ?_, by decide, ?_, ?_⟩
  · rw [heval]
    norm_num [cvtUNat]
    rfl
  · have hlen : (Texture.new 256 128).data.length = 32768 := by
      show (List.replicate (256 * 128) (0 : ℕ)).length = 32768
      rw [List.length_replicate]
    rw [hlen]
    decide
  · exact Texture.set_oob (Texture.wf_new 256 128) (by omega) (by decide) 0 outlinePix

/-- Claim C5 counterexample: a source color with zero alpha but nonzero
color channels is not absorbed by over. -/
theorem over_transparent_alpha_counterexample :
    (⟨1, 0, 0, 0⟩ : vec4).w = 0
      ∧ over ⟨1, 0, 0, 0⟩ ⟨0, 0, 0, 0⟩ ≠ ⟨0, 0, 0, 0⟩ := by
  norm_num [over, vec4.add, vec4.smul, vec4.mk.injEq]

/-- Claim C5 (amended): when src.alpha = 0, over(src, dst) = src + dst
per channel, so the result equals dst exactly when the color channels of
src are also all zero. -/
theorem over_zero_alpha_adds (src dst : vec4) (hsrc : src.w = 0) :
    over src dst = vec4.add src dst
      ∧ (src.x = 0 → src.y = 0 → src.z = 0 → over src dst = dst) := by
  obtain ⟨sx, sy, sz, sw⟩ := src
  obtain ⟨dx, dy, dz, dw⟩ := dst
  have hw : sw = 0 := hsrc
  subst hw
  constructor
  · norm_num [over, vec4.add, vec4.smul, vec4.mk.injEq]
  · intro h1 h2 h3
    have e1 : sx = 0 := h1
    have e2 : sy = 0 := h2
    have e3 : sz = 0 := h3
    subst e1; subst e2; subst e3
    norm_num [over, vec4.add, vec4.smul, vec4.mk.injEq]

/-- Witness for C5 (amended) at concrete colors. -/
theorem over_zero_alpha_adds_witness :
    over ⟨1 / 2, 0, 0, 0⟩ ⟨1 / 4, 1 / 4, 1 / 4, 1⟩
      = vec4.add ⟨1 / 2, 0, 0, 0⟩ ⟨1 / 4, 1 / 4, 1 / 4, 1⟩ :=
  (over_zero_alpha_adds ⟨1 / 2, 0, 0, 0⟩ ⟨1 / 4, 1 / 4, 1 / 4, 1⟩ rfl).1

/-- Claim C6: select iterates the function list from last-added to first
and returns the first function whose value at pos.x strictly exceeds
pos.y, none when no function contains the point. -/
theorem select_topmost_first (s : TFEditor) (pos : vec2) :
    s.select pos = s.selectSpec pos := by
  unfold TFEditor.select TFEditor.selectSpec
  rw [selectLoop_eq s.functions pos s.functions.length (le_refl _), List.take_length]

/-- Claim C7 counterexample: with one registered function of value -1,
the editor eval returns 0 while the pointwise maximum over the
registered functions is -1. -/
theorem editor_eval_not_pointwise_max :
    TFEditor.eval negEditor (1 / 2) = 0
      ∧ TFEditor.evalSpecMax negEditor (1 / 2) = -1 := by
  constructor
  · norm_num [TFEditor.eval, negEditor, negPL, PiecewiseLinear.toFunction,
      PiecewiseLinear.eval, PiecewiseLinear.ofPoints, sortCPs, insertCP, evalScan]
  · norm_num [TFEditor.evalSpecMax, negEditor, negPL, PiecewiseLinear.toFunction,
      PiecewiseLinear.eval, PiecewiseLinear.ofPoints, sortCPs, insertCP, evalScan,
      List.max?]

/-- Claim C7 (amended): TFEditor.eval is the fold of max over the
function values seeded with 0 (the pointwise maximum when all values are
nonnegative, 0 when empty); with the outline enabled, an in-bounds pixel
of the outline phase is the opaque orange exactly when its column
envelope is positive and its row is yf * height (a row index equal to
height is out of bounds and stores nothing), all other pixels being left
unchanged. -/
theorem editor_eval_max_and_outline :
    (∀ (s : TFEditor) (q : ℚ),
        TFEditor.eval s q = (s.functions.map (fun f => f.eval q)).foldr max 0)
      ∧ (∀ (s : TFEditor) (w h x y : ℕ) (t : Texture),
          s.showOutline = true → t.wf w h → x < w → y < h → h < U32 →
          (∀ xp, xp < w → cvtUNat (s.eval (normX w xp) * h) < U32) →
          (outlinePhase s w h t).get x y
            = if s.eval (normX w x) > 0 ∧ y = cvtUNat (s.eval (normX w x) * h)
              then outlinePix else t.get x y) := by
  constructor
  · intro s q
    unfold TFEditor.eval
    rw [← List.foldl_map (fun f => f.eval q) max s.functions 0]
    exact foldl_max_eq_foldr _ 0
  · intro s w h x y t hso ht hx hy hU hb
    unfold outlinePhase
    rw [hso]
    simp only [if_pos]
    rw [outlineLoop_get s w h hU hb t ht w (le_refl w) hx hy]
    by_cases hc : s.eval (normX w x) > 0 ∧ y = cvtUNat (s.eval (normX w x) * h)
    · rw [if_pos ⟨hx, hc⟩, if_pos hc]
    · rw [if_neg (fun hcon => hc hcon.2), if_neg hc]

/-- Witness for C7 (amended) at a concrete editor and pixel. -/
theorem editor_eval_max_and_outline_witness :
    (outlinePhase tentEditor 3 2 (Texture.new 3 2)).get 1 1
      = if TFEditor.eval tentEditor (normX 3 1) > 0
            ∧ 1 = cvtUNat (TFEditor.eval tentEditor (normX 3 1) * 2)
        then outlinePix else (Texture.new 3 2).get 1 1 :=
  editor_eval_max_and_outline.2 tentEditor 3 2 1 1 (Texture.new 3 2) rfl
    (Texture.wf_new 3 2) (by decide) (by decide) (by decide)
    (by
      intro xp hxp
      interval_cases xp <;>
        norm_num [TFEditor.eval, tentEditor, Tent.toFunction, Tent.eval,
          Tent.internal, Tent.defaultTent, sortCPs, insertCP,
          PiecewiseLinear.eval, evalScan, normX, cvtUNat, U32])

/-- Claim C8: the default Function.rasterize paints, in each column, the
translucent gray exactly on the rows below yf * height, and columns with
a nonpositive value receive no fill, everything else staying transparent
black. -/
theorem function_rasterize_pixels (f : Function) (w h x y : ℕ)
    (hx : x < w) (hy : y < h) (hU : h < U32)
    (hb : ∀ xp, xp < w → yvalAt f w h xp ≤ U32) :
    (f.rasterize w h).get x y
        = (if y < cvtUNat (f.eval (normX w x) * h) then grayPix else 0)
      ∧ (f.eval (normX w x) ≤ 0 → (f.rasterize w h).get x y = 0) := by
  have h1 := Function.rasterize_get f hU hb hx hy
  refine ⟨h1, fun hle => ?_⟩
  have hcast : (0 : ℚ) ≤ (h : ℚ) := Nat.cast_nonneg h
  have hmul : f.eval (normX w x) * (h : ℚ) ≤ 0 := by nlinarith
  have hfloor : ⌊f.eval (normX w x) * (h : ℚ)⌋ ≤ 0 := by
    have := Int.floor_le_floor hmul
    simpa using this
  have h0 : cvtUNat (f.eval (normX w x) * h) = 0 := by
    unfold cvtUNat
    exact Int.toNat_eq_zero.mpr hfloor
  rw [h1, h0]
  simp

/-- Witness for C8 at the default tent and a 3 x 2 image. -/
theorem function_rasterize_pixels_witness :
    (Tent.defaultTent.toFunction.rasterize 3 2).get 1 1
      = (if 1 < cvtUNat (Tent.defaultTent.toFunction.eval (normX 3 1) * 2)
         then grayPix else 0) :=
  (function_rasterize_pixels Tent.defaultTent.toFunction 3 2 1 1
    (by decide) (by decide) (by decide)
    (by
      intro xp hxp
      interval_cases xp <;>
        norm_num [yvalAt, Tent.toFunction, Tent.eval, Tent.internal,
          Tent.defaultTent, sortCPs, insertCP, PiecewiseLinear.eval,
          evalScan, normX, cvtUNat, U32])).1

/-- Claim C9: for every byte value b, converting to float by dividing by
255 and packing back with clamp, scale and truncate recovers b. -/
theorem packed_float_roundtrip (b : Fin 256) :
    cvt_uint32 (cvt_float32 b.val) = b.val := by
  have hb : (b.val : ℚ) ≤ 255 := by
    have := b.isLt
    exact_mod_cast Nat.le_of_lt_succ this
  unfold cvt_uint32 cvt_float32 clamp
  have h1 : max ((b.val : ℚ) / 255) 0 = (b.val : ℚ) / 255 :=
    max_eq_left (by positivity)
  have h2 : min ((b.val : ℚ) / 255) 1 = (b.val : ℚ) / 255 :=
    min_eq_left (by rw [div_le_one (by norm_num)]; exact hb)
  rw [h1, h2]
  have h3 : (255 : ℚ) * ((b.val : ℚ) / 255) = (b.val : ℚ) := by field_simp
  rw [h3, Int.floor_natCast]
  simp

/-- Claim C10: the default tent expands into the four control points
(0,0), (0.5,1), (0.5,1), (1,0) of its internal piecewise-linear curve,
eval delegates to that curve, and it evaluates to 0 at 0 and 1 and to 1
at 0.5 despite the coincident top points. -/
theorem tent_default_expansion :
    Tent.defaultTent.internal.controlPoints
        = [⟨0, 0⟩, ⟨1 / 2, 1⟩, ⟨1 / 2, 1⟩, ⟨1, 0⟩]
      ∧ (∀ x : ℚ, Tent.defaultTent.eval x
          = PiecewiseLinear.eval
              ⟨[⟨0, 0⟩, ⟨1 / 2, 1⟩, ⟨1 / 2, 1⟩, ⟨1, 0⟩], ⟨0, 1⟩⟩ x)
      ∧ Tent.defaultTent.eval 0 = 0
      ∧ Tent.defaultTent.eval 1 = 0
      ∧ Tent.defaultTent.eval (1 / 2) = 1 := by
  have hint : Tent.defaultTent.internal
      = ⟨[⟨0, 0⟩, ⟨1 / 2, 1⟩, ⟨1 / 2, 1⟩, ⟨1, 0⟩], ⟨0, 1⟩⟩ := by
    norm_num [Tent.internal, Tent.defaultTent, sortCPs, insertCP,
      PiecewiseLinear.mk.injEq, vec2.mk.injEq]
  refine ⟨by rw [hint], fun x => by rw [Tent.eval, hint], ?_, ?_, ?_⟩ <;>
    norm_num [Tent.eval, Tent.internal, Tent.defaultTent, sortCPs, insertCP,
      PiecewiseLinear.eval, evalScan]

end tfe
